import Mathlib

/-!
Shallow embedding of `src/core/backup/dependency_resolver.py`
(class `DependencyResolver`) from the nhi-core repository, together with
proofs about its dependency-resolution, caching and backup-policy logic.
-/

namespace NHI

/-- Node of the dependency graph, mirroring the dict produced per service by
`DependencyResolver._build_graph` (keys `vmid`, `ip`, `status`, `type`,
`requires`, `optional`, `is_infrastructure`). -/
structure NodeInfo where
  vmid : Option Nat
  ip : Option String
  status : String
  type : String
  requires : List String
  optional : List String
  is_infrastructure : Bool
deriving DecidableEq, Repr

/-- The dependency graph: a Python dict `name -> info`, embedded as an
insertion-ordered association list with unique keys. -/
abbrev Graph := List (String × NodeInfo)

/-- Dict lookup `graph[name]` / `name in graph`. -/
def Graph.find (g : Graph) (n : String) : Option NodeInfo :=
  List.lookup n g

/-- Python dict assignment `d[k] = v`: updates the value in place when the key
is present (keeping its position), otherwise appends a new entry. -/
def dictInsert {β : Type} (m : List (String × β)) (k : String) (v : β) :
    List (String × β) :=
  if (List.lookup k m).isSome then
    m.map (fun p => if p.1 = k then (k, v) else p)
  else m ++ [(k, v)]

/-- Total number of dependency edges mentioned in the graph (used only as a
fuel bound for the worklist loop of `resolve`). -/
def depTotal (g : Graph) : Nat :=
  (g.flatMap (fun p => p.2.requires ++ p.2.optional)).length

/-- Every name the worklist of `resolve` can ever contain, other than the
initially queried name: the graph's keys and every name appearing in a
`requires`/`optional` list. -/
def allNames (g : Graph) : List String :=
  g.map Prod.fst ++ g.flatMap (fun p => p.2.requires ++ p.2.optional)

/-- Number of graph-relevant names not yet in `resolved` (counted with
multiplicity); part of the termination measure of the worklist loop. -/
def missing (g : Graph) (resolved : List String) : Nat :=
  ((allNames g).filter (fun x => decide (x ∉ resolved))).length

/-- Termination measure of the worklist loop of `resolve`: it strictly
decreases at every iteration of the `while to_resolve:` loop. -/
def measureR (g : Graph) (resolved wl : List String) : Nat :=
  missing g resolved * (depTotal g + 2) + wl.length

/-- Fuel sufficient for the whole run of `resolve` started on `[name]`. -/
def initFuel (g : Graph) : Nat :=
  (allNames g).length * (depTotal g + 2) + 1

/-- The `while to_resolve:` loop of `DependencyResolver.resolve`, with an
explicit fuel argument (one unit per loop iteration).  `resolved` is kept as
the list of names in insertion order (the Python code keeps a set; the
membership tests are identical), `wl` is the `to_resolve` FIFO list.
Returns `none` only when the fuel runs out. -/
def resolveFuel (g : Graph) (opt : Bool) :
    Nat → List String → List String → Option (List String)
  | _, resolved, [] => some resolved
  | 0, _, _ :: _ => none
  | fuel+1, resolved, current :: rest =>
    if current ∈ resolved then
      resolveFuel g opt fuel resolved rest
    else
      let resolved' := resolved ++ [current]
      match Graph.find g current with
      | none => resolveFuel g opt fuel resolved' rest
      | some info =>
        resolveFuel g opt fuel resolved'
          ((rest ++ info.requires.filter (fun d => decide (d ∉ resolved'))) ++
            (if opt then info.optional.filter (fun d => decide (d ∉ resolved'))
             else []))

/-- `DependencyResolver.resolve(service_name, include_optional)`:
transitive dependency closure of `name`, over `requires` edges and, when
`opt` is true, also `optional` edges.  The graph is passed explicitly
(the Python method obtains it from `get_graph()`). -/
def resolve (g : Graph) (name : String) (opt : Bool) : List String :=
  (resolveFuel g opt (initFuel g) [] [name]).getD []

/-- One dependency edge of the graph: `b` is a direct dependency of `a`,
through `requires`, or through `optional` when `opt` is true. -/
def edgeProp (g : Graph) (opt : Bool) (a b : String) : Prop :=
  ∃ info, Graph.find g a = some info ∧
    (b ∈ info.requires ∨ (opt = true ∧ b ∈ info.optional))

/-- Reflexive-transitive reachability along dependency edges, the abstract
specification that `resolve` computes. -/
inductive Reaches (g : Graph) (opt : Bool) (a : String) : String → Prop
  | refl : Reaches g opt a a
  | step {b c : String} : Reaches g opt a b → edgeProp g opt b c →
      Reaches g opt a c

/-- A backup target, mirroring the dict `{**info, 'name': name,
'reason': reason}` built by `get_backup_targets`. -/
structure BackupTarget where
  info : NodeInfo
  name : String
  reason : String
deriving DecidableEq, Repr

/-- The default of `include_status` in `get_backup_targets`. -/
def defaultStatuses : List String := ["active", "development", "maintenance"]

/-- `set(include_status or ['active', 'development', 'maintenance'])`:
a `None` or empty `include_status` both fall back to the default set
(Python truthiness of the `or`). -/
def effectiveStatuses (incl_status : Option (List String)) : List String :=
  match incl_status with
  | none => defaultStatuses
  | some [] => defaultStatuses
  | some l => l

/-- The seeding step of `get_backup_targets`: `nhi-core`, when present in the
graph, is put into the map with reason `core` before any policy branch runs. -/
def seedTargets (g : Graph) : List (String × BackupTarget) :=
  match Graph.find g "nhi-core" with
  | some info => [("nhi-core", ⟨info, "nhi-core", "core"⟩)]
  | none => []

/-- Body of the `for dep in all_deps` loop of the `selective` policy branch:
a resolved, non-excluded, status-admitted graph node is added with reason
`explicit` (when it is the seed itself) or `dependency of <seed>`, but only
when not already present in the map. -/
def selDepStep (g : Graph) (excl statuses : List String) (service : String)
    (t : List (String × BackupTarget)) (dep : String) :
    List (String × BackupTarget) :=
  match Graph.find g dep with
  | none => t
  | some info =>
    if dep ∉ excl ∧ info.status ∈ statuses then
      if (List.lookup dep t).isSome then t
      else
        t ++ [(dep, ⟨info, dep,
          if dep = service then "explicit"
          else "dependency of " ++ service⟩)]
    else t

/-- Body of the `for service in (include or [])` loop of the `selective`
policy branch: resolve the service's required-only closure and fold its
members through `selDepStep`. -/
def selStep (g : Graph) (excl statuses : List String)
    (t : List (String × BackupTarget)) (service : String) :
    List (String × BackupTarget) :=
  if service ∈ excl then t
  else (resolve g service false).foldl (selDepStep g excl statuses service) t

/-- Body of the `core+infra` branch: every infrastructure node that is not
excluded and whose status is admitted is assigned (dict assignment,
overwriting) with reason `infrastructure`. -/
def infraStep (excl statuses : List String)
    (t : List (String × BackupTarget)) (p : String × NodeInfo) :
    List (String × BackupTarget) :=
  if p.2.is_infrastructure = true ∧ p.1 ∉ excl ∧ p.2.status ∈ statuses then
    dictInsert t p.1 ⟨p.2, p.1, "infrastructure"⟩
  else t

/-- Body of the `all` branch: every non-excluded, status-admitted node is
assigned (dict assignment, overwriting) with reason `all`. -/
def allStep (excl statuses : List String)
    (t : List (String × BackupTarget)) (p : String × NodeInfo) :
    List (String × BackupTarget) :=
  if p.1 ∉ excl ∧ p.2.status ∈ statuses then
    dictInsert t p.1 ⟨p.2, p.1, "all"⟩
  else t

/-- `DependencyResolver.get_backup_targets(policy, include, exclude,
include_status)`, over an explicitly passed graph.  The `targets` dict is the
insertion-ordered association list; the returned value is
`list(targets.values())`. -/
def get_backup_targets (g : Graph) (policy : String)
    (incl excl incl_status : Option (List String)) : List BackupTarget :=
  let excl := excl.getD []
  let statuses := effectiveStatuses incl_status
  let targets := seedTargets g
  let targets :=
    if policy = "core" then targets
    else if policy = "core+infra" then g.foldl (infraStep excl statuses) targets
    else if policy = "selective" then
      (incl.getD []).foldl (selStep g excl statuses) targets
    else if policy = "all" then g.foldl (allStep excl statuses) targets
    else targets
  targets.map Prod.snd

/-- The static allow-list `INFRASTRUCTURE_SERVICES`. -/
def INFRASTRUCTURE_SERVICES : List String :=
  ["postgresql", "postgres", "redis", "minio", "chromadb", "rabbitmq",
   "mongodb"]

/-- The `dependencies` entry of a manifest: legacy flat list, or a dict with
optional `required` / `optional` keys. -/
inductive DepsFormat
  | asList (deps : List String)
  | asDict (required : Option (List String)) (optional : Option (List String))
deriving DecidableEq, Repr

/-- A parsed manifest document.  Every field the builder reads is optional,
mirroring `data.get(...)` accesses. -/
structure Manifest where
  name : Option String
  vmid : Option Nat
  network_ip : Option String
  status : Option String
  type : Option String
  dependencies : Option DepsFormat
deriving DecidableEq, Repr

/-- A descriptor document as seen by `_build_graph`: `none` stands for a
document whose read or parse raises, or whose parsed value is falsy
(`not data`) — all of which the builder skips. -/
abbrev Doc := Option Manifest

/-- The node built from a manifest by `_build_graph` (lines 127-146). -/
def nodeOfManifest (m : Manifest) (name : String) : NodeInfo :=
  let req_opt : List String × List String :=
    match m.dependencies with
    | some (.asList l) => (l, [])
    | some (.asDict r o) => (r.getD [], o.getD [])
    | none => ([], [])
  { vmid := m.vmid
    ip := m.network_ip
    status := m.status.getD "unknown"
    type := m.type.getD "lxc"
    requires := req_opt.1
    optional := req_opt.2
    is_infrastructure := INFRASTRUCTURE_SERVICES.contains name.toLower }

/-- The manifest loop of `_build_graph`: documents that fail to parse
(`none`) or lack a `name` field are skipped and the loop continues; valid
ones are assigned into the graph dict. -/
def build_graph_docs (docs : List Doc) : Graph :=
  docs.foldl (fun g d =>
    match d with
    | none => g
    | some m =>
      match m.name with
      | none => g
      | some nm => dictInsert g nm (nodeOfManifest m nm)) []

/-- The serialized cache envelope's payload as `_load_cache` reads it:
`data.get('graph', {})`, so the `graph` key may be absent. -/
structure CacheData where
  graph : Option Graph
deriving DecidableEq, Repr

/-- The persisted cache file: its mtime and its content; `Except.error ()`
stands for a file whose open/parse raises (corrupt or unreadable). -/
structure CacheFile where
  mtime : Int
  content : Except Unit CacheData

/-- The state a `DependencyResolver` call observes: the cache file (if any),
the current time `now`, the TTL, the descriptor store, whether the registry
path exists, and whether a cache write would succeed.  The returned graph
never depends on the `saveOk` flag; the effect of a write on the persisted
file distinguishes more outcomes than one flag can (a failed `open` versus a
failed dump) and is modeled separately by `build_graph_run`. -/
structure ResolverState where
  cacheFile : Option CacheFile
  now : Int
  ttl : Int
  store : List Doc
  registry_path_exists : Bool
  saveOk : Bool

/-- `DependencyResolver._is_cache_valid`: the cache file exists and
`now - mtime < ttl` (strict). -/
def is_cache_valid (s : ResolverState) : Bool :=
  match s.cacheFile with
  | none => false
  | some cf => s.now - cf.mtime < s.ttl

/-- `DependencyResolver._build_graph`: an absent registry path yields the
empty graph, otherwise the manifests are folded into a graph; the result is
then saved to the cache, write errors being swallowed
(`_save_cache` catches every exception). -/
def build_graph (s : ResolverState) : Graph :=
  if s.registry_path_exists = false then [] else build_graph_docs s.store

/-- Outcome of the `_save_cache` call made by `_build_graph`.  The cache
file is opened with mode `w`, which truncates it before `yaml.dump` writes:
a failure of the `open` itself leaves the previous file untouched, while a
failure during the dump leaves a truncated file whose leftover content may
be unparseable or a parseable prefix of the envelope.  Either way the
exception is caught and logged, never raised to the caller. -/
inductive SaveOutcome
  | written
  | openFailed
  | dumpFailed (leftover : Except Unit CacheData)

/-- The persisted cache file after `_save_cache(graph)` runs at time `now`
against the previous file state `old`. -/
def save_cache_file (old : Option CacheFile) (now : Int) (g : Graph) :
    SaveOutcome → Option CacheFile
  | .written => some ⟨now, Except.ok ⟨some g⟩⟩
  | .openFailed => old
  | .dumpFailed leftover => some ⟨now, leftover⟩

/-- `DependencyResolver._build_graph` together with its effect on the cache
file: when the registry path is missing the method returns the empty graph
before ever calling `_save_cache`; otherwise the built graph is saved (with
`save_cache_file` describing the possible file outcomes) and returned
regardless of how the save fares. -/
def build_graph_run (s : ResolverState) (o : SaveOutcome) :
    Graph × Option CacheFile :=
  if s.registry_path_exists = false then (([] : Graph), s.cacheFile)
  else (build_graph_docs s.store,
    save_cache_file s.cacheFile s.now (build_graph_docs s.store) o)

/-- `DependencyResolver._load_cache`: returns the envelope's `graph` value
(defaulting to the empty dict when the key is absent); any read error falls
back to a full rebuild. -/
def load_cache (s : ResolverState) : Graph :=
  match s.cacheFile with
  | some cf =>
    match cf.content with
    | .ok data => data.graph.getD []
    | .error _ => build_graph s
  | none => build_graph s

/-- `DependencyResolver.get_graph(force_rebuild)`: the returned graph. -/
def get_graph (force : Bool) (s : ResolverState) : Graph :=
  if force = false ∧ is_cache_valid s = true then load_cache s
  else build_graph s

/-- Whether `get_graph` serves the cached envelope (true) or rebuilds
(false). -/
def get_graph_uses_cache (force : Bool) (s : ResolverState) : Bool :=
  force = false ∧ is_cache_valid s = true

/-! Concrete graphs, manifests and states used in counterexamples and
witnesses. -/

/-- Node with no dependencies, status `active`. -/
def nodeA : NodeInfo := ⟨some 1, some "10.0.0.1", "active", "lxc", [], [], false⟩

/-- Node requiring `A`, status `active`. -/
def nodeB : NodeInfo :=
  ⟨some 2, some "10.0.0.2", "active", "lxc", ["A"], [], false⟩

/-- Graph where `B` requires `A` (and `A` requires nothing). -/
def graphAB : Graph := [("A", nodeA), ("B", nodeB)]

/-- Node requiring `B`, for the two-cycle graph. -/
def nodeAcyc : NodeInfo := ⟨some 1, none, "active", "lxc", ["B"], [], false⟩

/-- Node requiring `A`, for the two-cycle graph. -/
def nodeBcyc : NodeInfo := ⟨some 2, none, "active", "lxc", ["A"], [], false⟩

/-- Graph with a dependency cycle: `A` requires `B` and `B` requires `A`. -/
def graphCycle : Graph := [("A", nodeAcyc), ("B", nodeBcyc)]

/-- An `nhi-core` node, status `active`. -/
def nodeCore : NodeInfo :=
  ⟨some 100, some "10.0.0.100", "active", "lxc", [], [], false⟩

/-- Graph containing only `nhi-core`. -/
def graphCore : Graph := [("nhi-core", nodeCore)]

/-- A manifest that parses but has no `name` field. -/
def namelessManifest : Manifest := ⟨none, some 7, none, some "active",
  some "lxc", none⟩

/-- A valid manifest named `svc-a`. -/
def manifestA : Manifest := ⟨some "svc-a", some 1, some "10.0.0.1",
  some "active", some "lxc", some (.asDict (some []) none)⟩

/-- A valid manifest named `svc-b`. -/
def manifestB : Manifest := ⟨some "svc-b", some 2, some "10.0.0.2",
  some "active", some "lxc", some (.asList ["svc-a"])⟩

/-- Store with one nameless document and two valid ones. -/
def storeC7 : List Doc := [some namelessManifest, some manifestA,
  some manifestB]

/-! General lemmas about association-list lookup and `dictInsert`. -/

theorem lookup_cons_self {β : Type} (p : String × β) (t : List (String × β)) :
    List.lookup p.1 (p :: t) = some p.2 := by
  simp [List.lookup]

theorem lookup_cons_ne {β : Type} {k : String} {p : String × β}
    (t : List (String × β)) (h : k ≠ p.1) :
    List.lookup k (p :: t) = List.lookup k t := by
  have hb : (k == p.1) = false := beq_eq_false_iff_ne.mpr h
  simp [List.lookup, hb]

theorem mem_of_lookup_eq_some {β : Type} {t : List (String × β)} {k : String}
    {v : β} (h : List.lookup k t = some v) : (k, v) ∈ t := by
  induction t with
  | nil => simp [List.lookup] at h
  | cons p t ih =>
    by_cases hk : k = p.1
    · subst hk
      rw [lookup_cons_self] at h
      obtain ⟨a, b⟩ := p
      simp at h
      simp [h]
    · rw [lookup_cons_ne t hk] at h
      exact List.mem_cons_of_mem _ (ih h)

theorem lookup_isSome_of_mem_keys {β : Type} {t : List (String × β)}
    {k : String} (h : k ∈ t.map Prod.fst) :
    (List.lookup k t).isSome = true := by
  induction t with
  | nil => simp at h
  | cons p t ih =>
    by_cases hk : k = p.1
    · subst hk
      rw [lookup_cons_self]
      rfl
    · rw [lookup_cons_ne t hk]
      rw [List.map_cons, List.mem_cons] at h
      rcases h with h | h
      · exact absurd h hk
      · exact ih h

theorem not_mem_keys_of_lookup_eq_none {β : Type} {t : List (String × β)}
    {k : String} (h : List.lookup k t = none) : k ∉ t.map Prod.fst := by
  intro hmem
  have hs := lookup_isSome_of_mem_keys hmem
  rw [h] at hs
  simp at hs

theorem lookup_append {β : Type} (t u : List (String × β)) (k : String) :
    List.lookup k (t ++ u) = (List.lookup k t).or (List.lookup k u) := by
  induction t with
  | nil => simp [List.lookup]
  | cons p t ih =>
    by_cases hk : k = p.1
    · subst hk
      rw [List.cons_append, lookup_cons_self, lookup_cons_self]
      rfl
    · rw [List.cons_append, lookup_cons_ne _ hk, lookup_cons_ne t hk]
      exact ih

theorem lookup_map_update_ne {β : Type} (t : List (String × β))
    (k k' : String) (v : β) (hne : k ≠ k') :
    List.lookup k (t.map (fun p => if p.1 = k' then (k', v) else p)) =
      List.lookup k t := by
  induction t with
  | nil => simp
  | cons p t ih =>
    by_cases hp : p.1 = k'
    · rw [List.map_cons, if_pos hp]
      rw [lookup_cons_ne _ (by simpa using hne),
        lookup_cons_ne t (fun h => hne (h.trans hp))]
      exact ih
    · rw [List.map_cons, if_neg hp]
      by_cases hk : k = p.1
      · subst hk
        rw [lookup_cons_self, lookup_cons_self]
      · rw [lookup_cons_ne _ hk, lookup_cons_ne t hk]
        exact ih

theorem lookup_map_update_self {β : Type} (t : List (String × β))
    (k : String) (v : β) (h : (List.lookup k t).isSome = true) :
    List.lookup k (t.map (fun p => if p.1 = k then (k, v) else p)) =
      some v := by
  induction t with
  | nil => simp [List.lookup] at h
  | cons p t ih =>
    by_cases hp : p.1 = k
    · rw [List.map_cons, if_pos hp]
      exact lookup_cons_self ((k, v)) _
    · rw [lookup_cons_ne t (fun h' => hp h'.symm)] at h
      rw [List.map_cons, if_neg hp,
        lookup_cons_ne _ (fun h' => hp h'.symm)]
      exact ih h

theorem lookup_eq_none_of_not_isSome {β : Type} {o : Option β}
    (h : ¬ o.isSome = true) : o = none := by
  cases o
  · rfl
  · simp at h

theorem dictInsert_lookup_self {β : Type} (t : List (String × β))
    (k : String) (v : β) : List.lookup k (dictInsert t k v) = some v := by
  rw [dictInsert]
  by_cases hs : (List.lookup k t).isSome = true
  · rw [if_pos hs]
    exact lookup_map_update_self t k v hs
  · rw [if_neg hs, lookup_append, lookup_eq_none_of_not_isSome hs]
    simp [List.lookup]

theorem dictInsert_lookup_ne {β : Type} (t : List (String × β))
    (k k' : String) (v : β) (hne : k ≠ k') :
    List.lookup k (dictInsert t k' v) = List.lookup k t := by
  rw [dictInsert]
  by_cases hs : (List.lookup k' t).isSome = true
  · rw [if_pos hs]
    exact lookup_map_update_ne t k k' v hne
  · rw [if_neg hs, lookup_append]
    have hnone : List.lookup k [(k', v)] = none := by
      rw [lookup_cons_ne _ hne]
      rfl
    rw [hnone]
    cases List.lookup k t <;> rfl

theorem dictInsert_lookup_isSome {β : Type} (t : List (String × β))
    (k k' : String) (v : β) (h : (List.lookup k t).isSome = true) :
    (List.lookup k (dictInsert t k' v)).isSome = true := by
  by_cases hk : k = k'
  · subst hk
    rw [dictInsert_lookup_self]
    rfl
  · rw [dictInsert_lookup_ne t k k' v hk]
    exact h

theorem lookup_append_of_some {β : Type} {t : List (String × β)}
    {k : String} {v : β} (u : List (String × β))
    (h : List.lookup k t = some v) :
    List.lookup k (t ++ u) = some v := by
  rw [lookup_append, h]
  rfl

/-- Invariant preservation through a left fold. -/
theorem foldl_preserve {α β : Type} (P : β → Prop) (f : β → α → β)
    (l : List α) (b : β) (hstep : ∀ b' a, a ∈ l → P b' → P (f b' a))
    (hb : P b) : P (l.foldl f b) := by
  induction l generalizing b with
  | nil => exact hb
  | cons a l ih =>
    exact ih (f b a)
      (fun b' a' ha' => hstep b' a' (List.mem_cons_of_mem _ ha'))
      (hstep b a (List.mem_cons_self _ _) hb)

/-! Termination of the worklist loop of `resolve`. -/

theorem length_filter_mono {α : Type} (l : List α) (p q : α → Bool)
    (h : ∀ x, q x = true → p x = true) :
    (l.filter q).length ≤ (l.filter p).length := by
  induction l with
  | nil => simp
  | cons a l ih =>
    rw [List.filter_cons, List.filter_cons]
    by_cases hq : q a = true
    · rw [if_pos hq, if_pos (h a hq)]
      simpa using ih
    · rw [if_neg hq]
      by_cases hp : p a = true
      · rw [if_pos hp]
        exact Nat.le_succ_of_le ih
      · rw [if_neg hp]
        exact ih

theorem length_filter_strict {α : Type} (l : List α) (p q : α → Bool)
    (a : α) (h : ∀ x, q x = true → p x = true) (ha : a ∈ l)
    (hpa : p a = true) (hqa : q a = false) :
    (l.filter q).length < (l.filter p).length := by
  induction l with
  | nil => cases ha
  | cons b l ih =>
    rw [List.filter_cons, List.filter_cons]
    rcases List.mem_cons.mp ha with rfl | hb
    · rw [if_pos hpa, if_neg (by simp [hqa])]
      exact Nat.lt_succ_of_le (length_filter_mono l p q h)
    · by_cases hq : q b = true
      · rw [if_pos hq, if_pos (h b hq)]
        simpa using ih hb
      · rw [if_neg hq]
        by_cases hp : p b = true
        · rw [if_pos hp]
          exact Nat.lt_succ_of_lt (ih hb)
        · rw [if_neg hp]
          exact ih hb

theorem missing_append_le (g : Graph) (resolved : List String) (c : String) :
    missing g (resolved ++ [c]) ≤ missing g resolved := by
  apply length_filter_mono
  intro x hx
  simp only [decide_eq_true_eq] at hx ⊢
  intro hmem
  exact hx (List.mem_append_left _ hmem)

theorem missing_append_lt (g : Graph) (resolved : List String) (c : String)
    (hmem : c ∈ allNames g) (hc : c ∉ resolved) :
    missing g (resolved ++ [c]) < missing g resolved := by
  apply length_filter_strict _ _ _ c
  · intro x hx
    simp only [decide_eq_true_eq] at hx ⊢
    intro hm
    exact hx (List.mem_append_left _ hm)
  · exact hmem
  · simpa using hc
  · simp

theorem find_mem_keys {g : Graph} {n : String} {info : NodeInfo}
    (h : Graph.find g n = some info) : n ∈ g.map Prod.fst :=
  List.mem_map.mpr ⟨(n, info), mem_of_lookup_eq_some h, rfl⟩

theorem find_mem_allNames {g : Graph} {n : String} {info : NodeInfo}
    (h : Graph.find g n = some info) : n ∈ allNames g :=
  List.mem_append_left _ (find_mem_keys h)

theorem deps_le_depTotal {g : Graph} {n : String} {info : NodeInfo}
    (h : (n, info) ∈ g) :
    info.requires.length + info.optional.length ≤ depTotal g := by
  induction g with
  | nil => cases h
  | cons p g ih =>
    have hTot : depTotal (p :: g) =
        (p.2.requires.length + p.2.optional.length) + depTotal g := by
      simp [depTotal]
      omega
    rcases List.mem_cons.mp h with heq | hm
    · rw [hTot]
      have hp2 : p.2 = info := by rw [← heq]
      rw [hp2]
      exact Nat.le_add_right _ _
    · rw [hTot]
      exact le_trans (ih hm) (Nat.le_add_left _ _)

theorem resolveFuel_nil (g : Graph) (opt : Bool) (fuel : Nat)
    (resolved : List String) :
    resolveFuel g opt fuel resolved [] = some resolved := by
  cases fuel <;> rfl

theorem resolveFuel_cons_mem (g : Graph) (opt : Bool) (fuel : Nat)
    {resolved : List String} {current : String} (rest : List String)
    (h : current ∈ resolved) :
    resolveFuel g opt (fuel + 1) resolved (current :: rest) =
      resolveFuel g opt fuel resolved rest := by
  simp [resolveFuel, h]

theorem resolveFuel_cons_none (g : Graph) (opt : Bool) (fuel : Nat)
    {resolved : List String} {current : String} (rest : List String)
    (h : current ∉ resolved) (hf : Graph.find g current = none) :
    resolveFuel g opt (fuel + 1) resolved (current :: rest) =
      resolveFuel g opt fuel (resolved ++ [current]) rest := by
  simp [resolveFuel, h, hf]

theorem resolveFuel_cons_some (g : Graph) (opt : Bool) (fuel : Nat)
    {resolved : List String} {current : String} (rest : List String)
    {info : NodeInfo} (h : current ∉ resolved)
    (hf : Graph.find g current = some info) :
    resolveFuel g opt (fuel + 1) resolved (current :: rest) =
      resolveFuel g opt fuel (resolved ++ [current])
        ((rest ++ info.requires.filter
            (fun d => decide (d ∉ resolved ++ [current]))) ++
          (if opt then
            info.optional.filter
              (fun d => decide (d ∉ resolved ++ [current]))
           else [])) := by
  simp [resolveFuel, h, hf]

/-- Fuel sufficiency: with at least `measureR` much fuel the worklist loop of
`resolve` completes — this is the termination of the `while to_resolve:` loop
on an arbitrary graph. -/
theorem resolveFuel_isSome (g : Graph) (opt : Bool) :
    ∀ (fuel : Nat) (resolved wl : List String),
      measureR g resolved wl ≤ fuel →
      ∃ res, resolveFuel g opt fuel resolved wl = some res := by
  intro fuel
  induction fuel with
  | zero =>
    intro resolved wl h
    cases wl with
    | nil => exact ⟨resolved, resolveFuel_nil g opt 0 resolved⟩
    | cons c rest =>
      exfalso
      have hlen : (c :: rest).length ≤ measureR g resolved (c :: rest) :=
        Nat.le_add_left _ _
      have hc := le_trans hlen h
      simp only [List.length_cons] at hc
      omega
  | succ n ih =>
    intro resolved wl h
    cases wl with
    | nil => exact ⟨resolved, resolveFuel_nil g opt _ resolved⟩
    | cons current rest =>
      by_cases hc : current ∈ resolved
      · rw [resolveFuel_cons_mem g opt n rest hc]
        apply ih
        simp only [measureR, List.length_cons] at h ⊢
        omega
      · cases hf : Graph.find g current with
        | none =>
          rw [resolveFuel_cons_none g opt n rest hc hf]
          apply ih
          have h1 : missing g (resolved ++ [current]) * (depTotal g + 2) ≤
              missing g resolved * (depTotal g + 2) :=
            Nat.mul_le_mul_right _ (missing_append_le g resolved current)
          simp only [measureR, List.length_cons] at h ⊢
          omega
        | some info =>
          rw [resolveFuel_cons_some g opt n rest hc hf]
          apply ih
          have hlt : missing g (resolved ++ [current]) + 1 ≤
              missing g resolved :=
            missing_append_lt g resolved current (find_mem_allNames hf) hc
          have hmul : (missing g (resolved ++ [current]) + 1) *
              (depTotal g + 2) ≤ missing g resolved * (depTotal g + 2) :=
            Nat.mul_le_mul_right _ hlt
          rw [Nat.add_mul, Nat.one_mul] at hmul
          have hdep : info.requires.length + info.optional.length ≤
              depTotal g :=
            deps_le_depTotal (mem_of_lookup_eq_some hf)
          have hlen1 : (info.requires.filter
              (fun d => decide (d ∉ resolved ++ [current]))).length ≤
              info.requires.length := List.length_filter_le _ _
          have hlen2 : ((if opt then info.optional.filter
              (fun d => decide (d ∉ resolved ++ [current]))
              else []) : List String).length ≤
              info.optional.length := by
            cases opt
            · simp
            · simpa using List.length_filter_le _ _
          simp only [measureR, List.length_cons, List.length_append] at h ⊢
          omega

/-- The initial measure of a `resolve` run is exactly `initFuel`. -/
theorem measureR_init (g : Graph) (n : String) :
    measureR g [] [n] = initFuel g := by
  simp [measureR, initFuel, missing]

/-- Every name in `resolved` or on the worklist ends up in the result. -/
theorem resolveFuel_mem (g : Graph) (opt : Bool) :
    ∀ (fuel : Nat) (resolved wl res : List String),
      resolveFuel g opt fuel resolved wl = some res →
      ∀ x, (x ∈ resolved ∨ x ∈ wl) → x ∈ res := by
  intro fuel
  induction fuel with
  | zero =>
    intro resolved wl res heq x hx
    cases wl with
    | nil =>
      rw [resolveFuel_nil] at heq
      cases heq
      rcases hx with hx | hx
      · exact hx
      · cases hx
    | cons c rest => cases heq
  | succ n ih =>
    intro resolved wl res heq x hx
    cases wl with
    | nil =>
      rw [resolveFuel_nil] at heq
      cases heq
      rcases hx with hx | hx
      · exact hx
      · cases hx
    | cons current rest =>
      by_cases hc : current ∈ resolved
      · rw [resolveFuel_cons_mem g opt n rest hc] at heq
        apply ih _ _ _ heq
        rcases hx with hx | hx
        · exact Or.inl hx
        · rcases List.mem_cons.mp hx with rfl | hx
          · exact Or.inl hc
          · exact Or.inr hx
      · have hmove : ∀ y, (y ∈ resolved ∨ y ∈ current :: rest) →
            (y ∈ resolved ++ [current] ∨ y ∈ rest) := by
          intro y hy
          rcases hy with hy | hy
          · exact Or.inl (List.mem_append_left _ hy)
          · rcases List.mem_cons.mp hy with rfl | hy
            · exact Or.inl (List.mem_append_right _ (by simp))
            · exact Or.inr hy
        cases hf : Graph.find g current with
        | none =>
          rw [resolveFuel_cons_none g opt n rest hc hf] at heq
          exact ih _ _ _ heq x (hmove x hx)
        | some info =>
          rw [resolveFuel_cons_some g opt n rest hc hf] at heq
          apply ih _ _ _ heq
          rcases hmove x hx with hy | hy
          · exact Or.inl hy
          · exact Or.inr (List.mem_append_left _ (List.mem_append_left _ hy))

/-- The result extends `resolved`: names are only ever added. -/
theorem resolveFuel_extends (g : Graph) (opt : Bool) :
    ∀ (fuel : Nat) (resolved wl res : List String),
      resolveFuel g opt fuel resolved wl = some res →
      ∃ t, res = resolved ++ t := by
  intro fuel
  induction fuel with
  | zero =>
    intro resolved wl res heq
    cases wl with
    | nil =>
      rw [resolveFuel_nil] at heq
      cases heq
      exact ⟨[], by simp⟩
    | cons c rest => cases heq
  | succ n ih =>
    intro resolved wl res heq
    cases wl with
    | nil =>
      rw [resolveFuel_nil] at heq
      cases heq
      exact ⟨[], by simp⟩
    | cons current rest =>
      by_cases hc : current ∈ resolved
      · rw [resolveFuel_cons_mem g opt n rest hc] at heq
        exact ih _ _ _ heq
      · cases hf : Graph.find g current with
        | none =>
          rw [resolveFuel_cons_none g opt n rest hc hf] at heq
          obtain ⟨t, ht⟩ := ih _ _ _ heq
          exact ⟨current :: t, by simp [ht]⟩
        | some info =>
          rw [resolveFuel_cons_some g opt n rest hc hf] at heq
          obtain ⟨t, ht⟩ := ih _ _ _ heq
          exact ⟨current :: t, by simp [ht]⟩

/-- The result is closed under dependency edges, given that the invariant
"every successor of a resolved name is resolved or on the worklist" holds. -/
theorem resolveFuel_closed (g : Graph) (opt : Bool) :
    ∀ (fuel : Nat) (resolved wl res : List String),
      resolveFuel g opt fuel resolved wl = some res →
      (∀ x ∈ resolved, ∀ y, edgeProp g opt x y →
        (y ∈ resolved ∨ y ∈ wl)) →
      ∀ x ∈ res, ∀ y, edgeProp g opt x y → y ∈ res := by
  intro fuel
  induction fuel with
  | zero =>
    intro resolved wl res heq hinv x hx y hy
    cases wl with
    | nil =>
      rw [resolveFuel_nil] at heq
      cases heq
      rcases hinv x hx y hy with h | h
      · exact h
      · cases h
    | cons c rest => cases heq
  | succ n ih =>
    intro resolved wl res heq hinv x hx y hy
    cases wl with
    | nil =>
      rw [resolveFuel_nil] at heq
      cases heq
      rcases hinv x hx y hy with h | h
      · exact h
      · cases h
    | cons current rest =>
      by_cases hc : current ∈ resolved
      · rw [resolveFuel_cons_mem g opt n rest hc] at heq
        refine ih _ _ _ heq ?_ x hx y hy
        intro x' hx' y' hy'
        rcases hinv x' hx' y' hy' with h | h
        · exact Or.inl h
        · rcases List.mem_cons.mp h with rfl | h
          · exact Or.inl hc
          · exact Or.inr h
      · cases hf : Graph.find g current with
        | none =>
          rw [resolveFuel_cons_none g opt n rest hc hf] at heq
          refine ih _ _ _ heq ?_ x hx y hy
          intro x' hx' y' hy'
          rcases List.mem_append.mp hx' with hx' | hx'
          · rcases hinv x' hx' y' hy' with h | h
            · exact Or.inl (List.mem_append_left _ h)
            · rcases List.mem_cons.mp h with rfl | h
              · exact Or.inl (List.mem_append_right _ (by simp))
              · exact Or.inr h
          · exfalso
            have : x' = current := by simpa using hx'
            subst this
            obtain ⟨info', hfind, _⟩ := hy'
            rw [hf] at hfind
            cases hfind
        | some info =>
          rw [resolveFuel_cons_some g opt n rest hc hf] at heq
          refine ih _ _ _ heq ?_ x hx y hy
          intro x' hx' y' hy'
          rcases List.mem_append.mp hx' with hx' | hx'
          · rcases hinv x' hx' y' hy' with h | h
            · exact Or.inl (List.mem_append_left _ h)
            · rcases List.mem_cons.mp h with rfl | h
              · exact Or.inl (List.mem_append_right _ (by simp))
              · exact Or.inr (List.mem_append_left _
                  (List.mem_append_left _ h))
          · have hx'' : x' = current := by simpa using hx'
            rw [hx''] at hy'
            obtain ⟨info', hfind, hdep⟩ := hy'
            rw [hf] at hfind
            cases hfind
            by_cases hyr : y' ∈ resolved ++ [current]
            · exact Or.inl hyr
            · rcases hdep with hdep | hdep
              · refine Or.inr (List.mem_append_left _
                  (List.mem_append_right _ ?_))
                rw [List.mem_filter]
                exact ⟨hdep, by simpa using hyr⟩
              · obtain ⟨hopt, hdep⟩ := hdep
                refine Or.inr (List.mem_append_right _ ?_)
                rw [hopt]
                simp only [if_true]
                rw [List.mem_filter]
                exact ⟨hdep, by simpa using hyr⟩

/-- Everything in the result is reachable from `n`, given that everything in
`resolved` and on the worklist is. -/
theorem resolveFuel_sound (g : Graph) (opt : Bool) (n : String) :
    ∀ (fuel : Nat) (resolved wl res : List String),
      resolveFuel g opt fuel resolved wl = some res →
      (∀ x ∈ resolved, Reaches g opt n x) →
      (∀ x ∈ wl, Reaches g opt n x) →
      ∀ x ∈ res, Reaches g opt n x := by
  intro fuel
  induction fuel with
  | zero =>
    intro resolved wl res heq hres hwl x hx
    cases wl with
    | nil =>
      rw [resolveFuel_nil] at heq
      cases heq
      exact hres x hx
    | cons c rest => cases heq
  | succ fn ih =>
    intro resolved wl res heq hres hwl x hx
    cases wl with
    | nil =>
      rw [resolveFuel_nil] at heq
      cases heq
      exact hres x hx
    | cons current rest =>
      have hcur : Reaches g opt n current :=
        hwl current (List.mem_cons_self _ _)
      have hrest : ∀ y ∈ rest, Reaches g opt n y :=
        fun y hy => hwl y (List.mem_cons_of_mem _ hy)
      by_cases hc : current ∈ resolved
      · rw [resolveFuel_cons_mem g opt fn rest hc] at heq
        exact ih _ _ _ heq hres hrest x hx
      · have hres' : ∀ y ∈ resolved ++ [current], Reaches g opt n y := by
          intro y hy
          rcases List.mem_append.mp hy with hy | hy
          · exact hres y hy
          · have : y = current := by simpa using hy
            rw [this]
            exact hcur
        cases hf : Graph.find g current with
        | none =>
          rw [resolveFuel_cons_none g opt fn rest hc hf] at heq
          exact ih _ _ _ heq hres' hrest x hx
        | some info =>
          rw [resolveFuel_cons_some g opt fn rest hc hf] at heq
          refine ih _ _ _ heq hres' ?_ x hx
          intro y hy
          rcases List.mem_append.mp hy with hy | hy
          · rcases List.mem_append.mp hy with hy | hy
            · exact hrest y hy
            · have hyreq : y ∈ info.requires := (List.mem_filter.mp hy).1
              exact Reaches.step hcur ⟨info, hf, Or.inl hyreq⟩
          · by_cases hopt : opt = true
            · rw [hopt] at hy
              simp only [if_true] at hy
              have hyopt : y ∈ info.optional := (List.mem_filter.mp hy).1
              exact Reaches.step hcur ⟨info, hf, Or.inr ⟨hopt, hyopt⟩⟩
            · rw [Bool.not_eq_true] at hopt
              rw [hopt] at hy
              simp at hy

/-- `resolve` computes exactly reflexive-transitive reachability along
dependency edges. -/
theorem mem_resolve_iff (g : Graph) (n : String) (opt : Bool) (x : String) :
    x ∈ resolve g n opt ↔ Reaches g opt n x := by
  obtain ⟨res, hres⟩ := resolveFuel_isSome g opt (initFuel g) [] [n]
    (le_of_eq (measureR_init g n))
  have hr : resolve g n opt = res := by
    rw [resolve, hres]
    rfl
  rw [hr]
  constructor
  · intro hx
    refine resolveFuel_sound g opt n _ _ _ _ hres ?_ ?_ x hx
    · intro y hy
      cases hy
    · intro y hy
      have : y = n := by simpa using hy
      rw [this]
      exact Reaches.refl
  · intro hreach
    induction hreach with
    | refl =>
      exact resolveFuel_mem g opt _ _ _ _ hres n (Or.inr (by simp))
    | step hab hedge ihab =>
      refine resolveFuel_closed g opt _ _ _ _ hres ?_ _ ihab _ hedge
      intro x' hx'
      cases hx'

/-- Reachability along required-only edges implies reachability when optional
edges are also followed. -/
theorem reaches_mono {g : Graph} {n x : String}
    (h : Reaches g false n x) : Reaches g true n x := by
  induction h with
  | refl => exact Reaches.refl
  | step hab hedge ihab =>
    obtain ⟨info, hfind, hdep⟩ := hedge
    rcases hdep with hdep | hdep
    · exact Reaches.step ihab ⟨info, hfind, Or.inl hdep⟩
    · cases hdep.1

/-- C3: `resolve(name, includeOptional)` terminates on every graph, cycles
included: with `initFuel` much fuel (one unit per iteration of the
`while to_resolve:` loop; the initial measure equals `initFuel`) the loop
always completes, for every graph, name and flag.  On the graph with a
dependency cycle (`A` requires `B`, `B` requires `A`), `resolve("A", false)`
terminates and returns exactly the set `{A, B}`. -/
theorem claim_C3 :
    (∀ (g : Graph) (name : String) (opt : Bool),
      ∃ res, resolveFuel g opt (initFuel g) [] [name] = some res) ∧
    resolve graphCycle "A" false = ["A", "B"] ∧
    (∀ x, x ∈ resolve graphCycle "A" false ↔ (x = "A" ∨ x = "B")) := by
  refine ⟨?_, ?_, ?_⟩
  · intro g name opt
    exact resolveFuel_isSome g opt (initFuel g) [] [name]
      (le_of_eq (measureR_init g name))
  · decide
  · intro x
    rw [(by decide : resolve graphCycle "A" false = ["A", "B"])]
    simp

/-- C4: for every graph and every name with no node in the graph,
`resolve(n, includeOptional)` returns exactly the singleton `[n]`, for both
flag values; and in general the returned set contains the queried name. -/
theorem claim_C4 :
    (∀ (g : Graph) (n : String) (opt : Bool),
      Graph.find g n = none → resolve g n opt = [n]) ∧
    (∀ (g : Graph) (n : String) (opt : Bool), n ∈ resolve g n opt) := by
  constructor
  · intro g n opt hf
    have hfuel : initFuel g = (allNames g).length * (depTotal g + 2) + 1 := rfl
    rw [resolve, hfuel]
    rw [resolveFuel_cons_none g opt _ [] (by simp) hf, resolveFuel_nil]
    rfl
  · intro g n opt
    exact (mem_resolve_iff g n opt n).mpr Reaches.refl

/-- Witness for C4 at a concrete input: `ghost` has no node in `graphAB`. -/
theorem claim_C4_witness :
    Graph.find graphAB "ghost" = none ∧
      resolve graphAB "ghost" true = ["ghost"] :=
  ⟨by decide, claim_C4.1 graphAB "ghost" true (by decide)⟩

/-- C5: the closure that follows optional edges contains the required-only
closure: every member of `resolve(n, false)` is a member of
`resolve(n, true)`. -/
theorem claim_C5 (g : Graph) (n x : String)
    (h : x ∈ resolve g n false) : x ∈ resolve g n true :=
  (mem_resolve_iff g n true x).mpr
    (reaches_mono ((mem_resolve_iff g n false x).mp h))

/-- Witness for C5 at a concrete input. -/
theorem claim_C5_witness :
    "B" ∈ resolve graphCycle "A" false ∧
      "B" ∈ resolve graphCycle "A" true :=
  ⟨by decide, claim_C5 graphCycle "A" "B" (by decide)⟩

/-- The queried name is the head of the list `resolve` returns. -/
theorem resolve_head (g : Graph) (n : String) (opt : Bool) :
    ∃ tail, resolve g n opt = n :: tail := by
  obtain ⟨res, hres⟩ := resolveFuel_isSome g opt (initFuel g) [] [n]
    (le_of_eq (measureR_init g n))
  have hr : resolve g n opt = res := by
    rw [resolve, hres]
    rfl
  have hfuel : initFuel g = (allNames g).length * (depTotal g + 2) + 1 := rfl
  rw [hfuel] at hres
  have hnotmem : n ∉ ([] : List String) := by simp
  cases hf : Graph.find g n with
  | none =>
    rw [resolveFuel_cons_none g opt _ [] hnotmem hf, resolveFuel_nil] at hres
    cases hres
    exact ⟨[], hr⟩
  | some info =>
    rw [resolveFuel_cons_some g opt _ [] hnotmem hf] at hres
    obtain ⟨t, ht⟩ := resolveFuel_extends g opt _ _ _ _ hres
    exact ⟨t, by rw [hr, ht]; rfl⟩

/-! Lemmas about the policy engine `get_backup_targets`. -/

theorem lookup_seed_ne (g : Graph) {s : String} (h : s ≠ "nhi-core") :
    List.lookup s (seedTargets g) = none := by
  rw [seedTargets]
  cases Graph.find g "nhi-core" with
  | none => rfl
  | some info =>
    rw [lookup_cons_ne _ h]
    rfl

theorem seed_lookup_core {g : Graph} {info : NodeInfo}
    (h : Graph.find g "nhi-core" = some info) :
    List.lookup "nhi-core" (seedTargets g) =
      some ⟨info, "nhi-core", "core"⟩ := by
  simp only [seedTargets, h]
  exact lookup_cons_self
    (("nhi-core", (⟨info, "nhi-core", "core"⟩ : BackupTarget))) []

theorem selDepStep_lookup_some (g : Graph) (excl statuses : List String)
    (service : String) {t : List (String × BackupTarget)} {k : String}
    {v : BackupTarget} (h : List.lookup k t = some v) (dep : String) :
    List.lookup k (selDepStep g excl statuses service t dep) = some v := by
  cases hfd : Graph.find g dep with
  | none =>
    simp only [selDepStep, hfd]
    exact h
  | some info =>
    simp only [selDepStep, hfd]
    by_cases hcond : dep ∉ excl ∧ info.status ∈ statuses
    · rw [if_pos hcond]
      by_cases hs : (List.lookup dep t).isSome = true
      · rw [if_pos hs]
        exact h
      · rw [if_neg hs]
        exact lookup_append_of_some _ h
    · rw [if_neg hcond]
      exact h

theorem selStep_lookup_some (g : Graph) (excl statuses : List String)
    {t : List (String × BackupTarget)} {k : String} {v : BackupTarget}
    (h : List.lookup k t = some v) (service : String) :
    List.lookup k (selStep g excl statuses t service) = some v := by
  rw [selStep]
  by_cases hex : service ∈ excl
  · rw [if_pos hex]
    exact h
  · rw [if_neg hex]
    exact foldl_preserve (fun t' => List.lookup k t' = some v) _ _ _
      (fun t' dep _ h' => selDepStep_lookup_some g excl statuses service h' dep)
      h

theorem allStep_lookup_ne (excl statuses : List String)
    {t : List (String × BackupTarget)} {k : String} (p : String × NodeInfo)
    (hne : p.1 ≠ k) :
    List.lookup k (allStep excl statuses t p) = List.lookup k t := by
  rw [allStep]
  by_cases hcond : p.1 ∉ excl ∧ p.2.status ∈ statuses
  · rw [if_pos hcond]
    exact dictInsert_lookup_ne t k p.1 _ (fun h => hne h.symm)
  · rw [if_neg hcond]

theorem allStep_lookup_excluded (excl statuses : List String)
    {t : List (String × BackupTarget)} {k : String} (hk : k ∈ excl)
    (p : String × NodeInfo) :
    List.lookup k (allStep excl statuses t p) = List.lookup k t := by
  by_cases hp : p.1 = k
  · rw [allStep]
    have hno : ¬(p.1 ∉ excl ∧ p.2.status ∈ statuses) := by
      rw [hp]
      intro hc
      exact hc.1 hk
    rw [if_neg hno]
  · exact allStep_lookup_ne excl statuses p hp

theorem infraStep_lookup_ne (excl statuses : List String)
    {t : List (String × BackupTarget)} {k : String} (p : String × NodeInfo)
    (hne : p.1 ≠ k) :
    List.lookup k (infraStep excl statuses t p) = List.lookup k t := by
  rw [infraStep]
  by_cases hcond : p.2.is_infrastructure = true ∧ p.1 ∉ excl ∧
      p.2.status ∈ statuses
  · rw [if_pos hcond]
    exact dictInsert_lookup_ne t k p.1 _ (fun h => hne h.symm)
  · rw [if_neg hcond]

theorem infraStep_lookup_excluded (excl statuses : List String)
    {t : List (String × BackupTarget)} {k : String} (hk : k ∈ excl)
    (p : String × NodeInfo) :
    List.lookup k (infraStep excl statuses t p) = List.lookup k t := by
  by_cases hp : p.1 = k
  · rw [infraStep]
    have hno : ¬(p.2.is_infrastructure = true ∧ p.1 ∉ excl ∧
        p.2.status ∈ statuses) := by
      rw [hp]
      intro hc
      exact hc.2.1 hk
    rw [if_neg hno]
  · exact infraStep_lookup_ne excl statuses p hp

theorem infraStep_lookup_notinfra (excl statuses : List String)
    {t : List (String × BackupTarget)} {k : String} (p : String × NodeInfo)
    (hinf : p.1 = k → p.2.is_infrastructure = false) :
    List.lookup k (infraStep excl statuses t p) = List.lookup k t := by
  by_cases hp : p.1 = k
  · rw [infraStep]
    have hno : ¬(p.2.is_infrastructure = true ∧ p.1 ∉ excl ∧
        p.2.status ∈ statuses) := by
      intro hc
      rw [hinf hp] at hc
      cases hc.1
    rw [if_neg hno]
  · exact infraStep_lookup_ne excl statuses p hp

theorem allStep_preserves_named (excl statuses : List String) {k : String}
    (t : List (String × BackupTarget)) (p : String × NodeInfo)
    (h : ∃ v, List.lookup k t = some v ∧ v.name = k) :
    ∃ v, List.lookup k (allStep excl statuses t p) = some v ∧
      v.name = k := by
  by_cases hp : p.1 = k
  · rw [allStep]
    by_cases hcond : p.1 ∉ excl ∧ p.2.status ∈ statuses
    · rw [if_pos hcond]
      subst hp
      exact ⟨⟨p.2, p.1, "all"⟩, dictInsert_lookup_self t p.1 _, rfl⟩
    · rw [if_neg hcond]
      exact h
  · rw [allStep_lookup_ne excl statuses p hp]
    exact h

theorem infraStep_preserves_named (excl statuses : List String) {k : String}
    (t : List (String × BackupTarget)) (p : String × NodeInfo)
    (h : ∃ v, List.lookup k t = some v ∧ v.name = k) :
    ∃ v, List.lookup k (infraStep excl statuses t p) = some v ∧
      v.name = k := by
  by_cases hp : p.1 = k
  · rw [infraStep]
    by_cases hcond : p.2.is_infrastructure = true ∧ p.1 ∉ excl ∧
        p.2.status ∈ statuses
    · rw [if_pos hcond]
      subst hp
      exact ⟨⟨p.2, p.1, "infrastructure"⟩, dictInsert_lookup_self t p.1 _,
        rfl⟩
    · rw [if_neg hcond]
      exact h
  · rw [infraStep_lookup_ne excl statuses p hp]
    exact h

theorem selStep_preserves_named (g : Graph) (excl statuses : List String)
    {k : String} (t : List (String × BackupTarget)) (service : String)
    (h : ∃ v, List.lookup k t = some v ∧ v.name = k) :
    ∃ v, List.lookup k (selStep g excl statuses t service) = some v ∧
      v.name = k := by
  obtain ⟨v, hv, hn⟩ := h
  exact ⟨v, selStep_lookup_some g excl statuses hv service, hn⟩

theorem mem_output_of_lookup {t : List (String × BackupTarget)} {k : String}
    {v : BackupTarget} (h : List.lookup k t = some v) :
    v ∈ t.map Prod.snd :=
  List.mem_map.mpr ⟨(k, v), mem_of_lookup_eq_some h, rfl⟩

/-! Well-formedness of the targets map: every stored target's `name` equals
its key, and the keys are free of duplicates.  This holds through every
policy branch, because both insertion forms key their entry by the target's
name. -/

theorem append_WF {t : List (String × BackupTarget)} {k : String}
    {v : BackupTarget} (hv : v.name = k)
    (hs : ¬ (List.lookup k t).isSome = true)
    (h : (∀ p ∈ t, p.2.name = p.1) ∧ (t.map Prod.fst).Nodup) :
    (∀ p ∈ t ++ [(k, v)], p.2.name = p.1) ∧
      ((t ++ [(k, v)]).map Prod.fst).Nodup := by
  obtain ⟨hname, hnd⟩ := h
  constructor
  · intro p hp
    rcases List.mem_append.mp hp with hp | hp
    · exact hname p hp
    · have hpk : p = (k, v) := by simpa using hp
      rw [hpk]
      exact hv
  · rw [List.map_append]
    have hk : k ∉ t.map Prod.fst :=
      not_mem_keys_of_lookup_eq_none (lookup_eq_none_of_not_isSome hs)
    simp [List.nodup_append, hnd, hk]

theorem dictInsert_WF {t : List (String × BackupTarget)} {k : String}
    {v : BackupTarget} (hv : v.name = k)
    (h : (∀ p ∈ t, p.2.name = p.1) ∧ (t.map Prod.fst).Nodup) :
    (∀ p ∈ dictInsert t k v, p.2.name = p.1) ∧
      ((dictInsert t k v).map Prod.fst).Nodup := by
  rw [dictInsert]
  by_cases hs : (List.lookup k t).isSome = true
  · rw [if_pos hs]
    obtain ⟨hname, hnd⟩ := h
    constructor
    · intro p hp
      rw [List.mem_map] at hp
      obtain ⟨q, hq, hpq⟩ := hp
      by_cases hq1 : q.1 = k
      · rw [← hpq, if_pos hq1]
        exact hv
      · rw [← hpq, if_neg hq1]
        exact hname q hq
    · have hkeys : (t.map (fun p => if p.1 = k then (k, v) else p)).map
          Prod.fst = t.map Prod.fst := by
        rw [List.map_map]
        apply List.map_congr_left
        intro p _
        by_cases hq1 : p.1 = k
        · simp [hq1]
        · simp [hq1]
      rw [hkeys]
      exact hnd
  · rw [if_neg hs]
    exact append_WF hv hs h

theorem allStep_WF (excl statuses : List String)
    (t : List (String × BackupTarget)) (p : String × NodeInfo)
    (h : (∀ q ∈ t, q.2.name = q.1) ∧ (t.map Prod.fst).Nodup) :
    (∀ q ∈ allStep excl statuses t p, q.2.name = q.1) ∧
      ((allStep excl statuses t p).map Prod.fst).Nodup := by
  rw [allStep]
  by_cases hcond : p.1 ∉ excl ∧ p.2.status ∈ statuses
  · rw [if_pos hcond]
    exact dictInsert_WF rfl h
  · rw [if_neg hcond]
    exact h

theorem infraStep_WF (excl statuses : List String)
    (t : List (String × BackupTarget)) (p : String × NodeInfo)
    (h : (∀ q ∈ t, q.2.name = q.1) ∧ (t.map Prod.fst).Nodup) :
    (∀ q ∈ infraStep excl statuses t p, q.2.name = q.1) ∧
      ((infraStep excl statuses t p).map Prod.fst).Nodup := by
  rw [infraStep]
  by_cases hcond : p.2.is_infrastructure = true ∧ p.1 ∉ excl ∧
      p.2.status ∈ statuses
  · rw [if_pos hcond]
    exact dictInsert_WF rfl h
  · rw [if_neg hcond]
    exact h

theorem selDepStep_WF (g : Graph) (excl statuses : List String)
    (service : String) (t : List (String × BackupTarget)) (dep : String)
    (h : (∀ q ∈ t, q.2.name = q.1) ∧ (t.map Prod.fst).Nodup) :
    (∀ q ∈ selDepStep g excl statuses service t dep, q.2.name = q.1) ∧
      ((selDepStep g excl statuses service t dep).map Prod.fst).Nodup := by
  cases hfd : Graph.find g dep with
  | none =>
    simp only [selDepStep, hfd]
    exact h
  | some info =>
    simp only [selDepStep, hfd]
    by_cases hcond : dep ∉ excl ∧ info.status ∈ statuses
    · rw [if_pos hcond]
      by_cases hs : (List.lookup dep t).isSome = true
      · rw [if_pos hs]
        exact h
      · rw [if_neg hs]
        exact append_WF rfl hs h
    · rw [if_neg hcond]
      exact h

theorem selStep_WF (g : Graph) (excl statuses : List String)
    (t : List (String × BackupTarget)) (service : String)
    (h : (∀ q ∈ t, q.2.name = q.1) ∧ (t.map Prod.fst).Nodup) :
    (∀ q ∈ selStep g excl statuses t service, q.2.name = q.1) ∧
      ((selStep g excl statuses t service).map Prod.fst).Nodup := by
  rw [selStep]
  by_cases hex : service ∈ excl
  · rw [if_pos hex]
    exact h
  · rw [if_neg hex]
    exact foldl_preserve
      (fun t' => (∀ q ∈ t', q.2.name = q.1) ∧ (t'.map Prod.fst).Nodup)
      _ _ _ (fun t' dep _ h' => selDepStep_WF g excl statuses service t' dep h')
      h

theorem seed_WF (g : Graph) :
    (∀ q ∈ seedTargets g, q.2.name = q.1) ∧
      ((seedTargets g).map Prod.fst).Nodup := by
  rw [seedTargets]
  cases Graph.find g "nhi-core" with
  | none => simp
  | some info =>
    constructor
    · intro q hq
      have hq' : q = ("nhi-core", ⟨info, "nhi-core", "core"⟩) := by
        simpa using hq
      rw [hq']
    · simp

/-- Every branch of `get_backup_targets` produces a well-formed targets map:
names equal keys and keys are duplicate-free. -/
theorem getTargets_WF (g : Graph) (policy : String)
    (incl excl statuses : List String) :
    (∀ q ∈ (if policy = "core" then seedTargets g
      else if policy = "core+infra" then
        g.foldl (infraStep excl statuses) (seedTargets g)
      else if policy = "selective" then
        incl.foldl (selStep g excl statuses) (seedTargets g)
      else if policy = "all" then
        g.foldl (allStep excl statuses) (seedTargets g)
      else seedTargets g), q.2.name = q.1) ∧
    (((if policy = "core" then seedTargets g
      else if policy = "core+infra" then
        g.foldl (infraStep excl statuses) (seedTargets g)
      else if policy = "selective" then
        incl.foldl (selStep g excl statuses) (seedTargets g)
      else if policy = "all" then
        g.foldl (allStep excl statuses) (seedTargets g)
      else seedTargets g).map Prod.fst)).Nodup := by
  split_ifs
  · exact seed_WF g
  · exact foldl_preserve
      (fun t' => (∀ q ∈ t', q.2.name = q.1) ∧ (t'.map Prod.fst).Nodup)
      _ _ _ (fun t' p _ h' => infraStep_WF excl statuses t' p h') (seed_WF g)
  · exact foldl_preserve
      (fun t' => (∀ q ∈ t', q.2.name = q.1) ∧ (t'.map Prod.fst).Nodup)
      _ _ _ (fun t' s _ h' => selStep_WF g excl statuses t' s h') (seed_WF g)
  · exact foldl_preserve
      (fun t' => (∀ q ∈ t', q.2.name = q.1) ∧ (t'.map Prod.fst).Nodup)
      _ _ _ (fun t' p _ h' => allStep_WF excl statuses t' p h') (seed_WF g)
  · exact seed_WF g

theorem getTargets_core_eq (g : Graph) (incl excl stats :
    Option (List String)) :
    get_backup_targets g "core" incl excl stats =
      (seedTargets g).map Prod.snd := by
  simp [get_backup_targets]

theorem getTargets_infra_eq (g : Graph) (incl excl stats :
    Option (List String)) :
    get_backup_targets g "core+infra" incl excl stats =
      (g.foldl (infraStep (excl.getD []) (effectiveStatuses stats))
        (seedTargets g)).map Prod.snd := by
  simp [get_backup_targets]

theorem getTargets_selective_eq (g : Graph) (incl excl stats :
    Option (List String)) :
    get_backup_targets g "selective" incl excl stats =
      ((incl.getD []).foldl (selStep g (excl.getD [])
        (effectiveStatuses stats)) (seedTargets g)).map Prod.snd := by
  simp [get_backup_targets]

theorem getTargets_all_eq (g : Graph) (incl excl stats :
    Option (List String)) :
    get_backup_targets g "all" incl excl stats =
      (g.foldl (allStep (excl.getD []) (effectiveStatuses stats))
        (seedTargets g)).map Prod.snd := by
  simp [get_backup_targets]

/-- The output's name list equals the key list of a well-formed targets map,
hence carries no duplicates. -/
theorem names_nodup_of_WF {T : List (String × BackupTarget)}
    (h1 : ∀ q ∈ T, q.2.name = q.1) (h2 : (T.map Prod.fst).Nodup) :
    ((T.map Prod.snd).map (fun v => v.name)).Nodup := by
  have hEq : (T.map Prod.snd).map (fun v => v.name) = T.map Prod.fst := by
    rw [List.map_map]
    exact List.map_congr_left (fun p hp => h1 p hp)
  rw [hEq]
  exact h2

/-- C1 counterexample: in `graphAB`, `B` requires `A`.  With the include
list processed in the order `B, A` (the other processing order of
`{A, B}`), `get_backup_targets` returns target `A` with reason
`dependency of B`, not `explicit` — the first-assigned reason wins and the
entry is never overwritten, so the claimed order-independence is false. -/
theorem claim_C1_counterexample :
    (get_backup_targets graphAB "selective" (some ["B", "A"]) none
        none).find? (fun t => t.name == "A") =
      some ⟨nodeA, "A", "dependency of B"⟩ ∧
    ¬ (get_backup_targets graphAB "selective" (some ["B", "A"]) none
        none).find? (fun t => t.name == "A") =
      some ⟨nodeA, "A", "explicit"⟩ := by
  constructor
  · decide
  · decide

/-- C1 (amended): under the `selective` policy, a service that is processed
first from the include list (not excluded, present in the graph with an
admitted status, and distinct from the always-seeded `nhi-core`) is assigned
reason `explicit`; in particular with `include = ["A", "B"]` processed in
list order, target `A` has reason `explicit`.  The reason does depend on
the processing order of `include` (see the counterexample). -/
theorem claim_C1 :
    (∀ (g : Graph) (s : String) (rest : List String)
        (excl stats : Option (List String)) (info : NodeInfo),
        Graph.find g s = some info →
        s ∉ excl.getD [] →
        info.status ∈ effectiveStatuses stats →
        s ≠ "nhi-core" →
        ∃ v ∈ get_backup_targets g "selective" (some (s :: rest)) excl stats,
          v.name = s ∧ v.reason = "explicit") ∧
    (get_backup_targets graphAB "selective" (some ["A", "B"]) none
        none).find? (fun t => t.name == "A") =
      some ⟨nodeA, "A", "explicit"⟩ := by
  constructor
  · intro g s rest excl stats info hf hex hst hne
    rw [getTargets_selective_eq]
    rw [Option.getD_some, List.foldl_cons]
    have h1 : List.lookup s (selStep g (excl.getD [])
        (effectiveStatuses stats) (seedTargets g) s) =
        some ⟨info, s, "explicit"⟩ := by
      rw [selStep, if_neg hex]
      obtain ⟨tail, htail⟩ := resolve_head g s false
      rw [htail, List.foldl_cons]
      have hstep1 : selDepStep g (excl.getD []) (effectiveStatuses stats) s
          (seedTargets g) s =
          seedTargets g ++ [(s, ⟨info, s, "explicit"⟩)] := by
        simp only [selDepStep, hf]
        rw [if_pos ⟨hex, hst⟩, lookup_seed_ne g hne, if_neg (by simp)]
        simp
      rw [hstep1]
      refine foldl_preserve
        (fun t' => List.lookup s t' = some ⟨info, s, "explicit"⟩)
        (selDepStep g (excl.getD []) (effectiveStatuses stats) s) tail _
        (fun t' dep _ h' => by
          exact selDepStep_lookup_some g _ _ s h' dep) ?_
      show List.lookup s (seedTargets g ++ [(s, ⟨info, s, "explicit"⟩)]) =
        some ⟨info, s, "explicit"⟩
      rw [lookup_append, lookup_seed_ne g hne]
      simp [List.lookup]
    have hfinal := foldl_preserve
      (fun t' => List.lookup s t' = some ⟨info, s, "explicit"⟩)
      (selStep g (excl.getD []) (effectiveStatuses stats)) rest _
      (fun t' sv _ h' => by exact selStep_lookup_some g _ _ h' sv) h1
    exact ⟨_, mem_output_of_lookup hfinal, rfl, rfl⟩
  · decide

/-- Witness for the amended C1 at a concrete input: with
`include = ["A", "B"]` in list order, `A` is assigned reason `explicit`. -/
theorem claim_C1_witness :
    ∃ v ∈ get_backup_targets graphAB "selective" (some ["A", "B"]) none none,
      v.name = "A" ∧ v.reason = "explicit" :=
  claim_C1.1 graphAB "A" ["B"] none none nodeA (by decide) (by decide)
    (by decide) (by decide)

/-- C2 counterexample: on a graph containing `nhi-core` (status `active`),
the `all` policy first seeds `nhi-core` with reason `core` and then
overwrites the entry with reason `all` — a later-computed candidate does
overwrite an already-present name, so first-assigned does not win in the
`all` branch, and `core` does not take precedence over `all`. -/
theorem claim_C2_counterexample :
    seedTargets graphCore =
      [("nhi-core", ⟨nodeCore, "nhi-core", "core"⟩)] ∧
    (get_backup_targets graphCore "all" none none none).map
      (fun v => v.reason) = ["all"] ∧
    ("all" : String) ≠ "core" := by
  refine ⟨by decide, by decide, by decide⟩

/-- C2 (amended): every returned target list carries each name exactly once
(the map guarantees dedup), and in the `selective` branch — the only branch
with an explicit presence check — an entry already in the map is never
overwritten, so the seeded `nhi-core` keeps reason `core`; the same holds
for `core+infra` whenever `nhi-core` is not marked as infrastructure (as the
builder guarantees).  In the `all` (and in general `core+infra`) branch,
however, dict assignment does overwrite, so the precedence claim fails
there (see the counterexample). -/
theorem claim_C2 :
    (∀ (g : Graph) (policy : String) (incl excl stats : Option (List String)),
      ((get_backup_targets g policy incl excl stats).map
        (fun v => v.name)).Nodup) ∧
    (∀ (g : Graph) (incl excl stats : Option (List String))
        (info : NodeInfo), Graph.find g "nhi-core" = some info →
      ∃ v ∈ get_backup_targets g "selective" incl excl stats,
        v.name = "nhi-core" ∧ v.reason = "core") ∧
    (∀ (g : Graph) (incl excl stats : Option (List String))
        (info : NodeInfo), Graph.find g "nhi-core" = some info →
        (∀ info', ("nhi-core", info') ∈ g →
          info'.is_infrastructure = false) →
      ∃ v ∈ get_backup_targets g "core+infra" incl excl stats,
        v.name = "nhi-core" ∧ v.reason = "core") := by
  refine ⟨?_, ?_, ?_⟩
  · intro g policy incl excl stats
    have hWF := getTargets_WF g policy (incl.getD []) (excl.getD [])
      (effectiveStatuses stats)
    simp only [get_backup_targets]
    exact names_nodup_of_WF hWF.1 hWF.2
  · intro g incl excl stats info hfind
    have hfinal := foldl_preserve
      (fun t' => List.lookup "nhi-core" t' =
        some ⟨info, "nhi-core", "core"⟩)
      (selStep g (excl.getD []) (effectiveStatuses stats)) (incl.getD []) _
      (fun t' sv _ h' => by exact selStep_lookup_some g _ _ h' sv)
      (seed_lookup_core hfind)
    rw [getTargets_selective_eq]
    exact ⟨_, mem_output_of_lookup hfinal, rfl, rfl⟩
  · intro g incl excl stats info hfind hnoinfra
    have hfinal := foldl_preserve
      (fun t' => List.lookup "nhi-core" t' =
        some ⟨info, "nhi-core", "core"⟩)
      (infraStep (excl.getD []) (effectiveStatuses stats)) g _
      (fun t' p hp h' => by
        show List.lookup "nhi-core"
          (infraStep (excl.getD []) (effectiveStatuses stats) t' p) =
          some ⟨info, "nhi-core", "core"⟩
        rw [infraStep_lookup_notinfra _ _ p
          (fun hp1 => hnoinfra p.2 (by rw [← hp1]; exact hp))]
        exact h')
      (seed_lookup_core hfind)
    rw [getTargets_infra_eq]
    exact ⟨_, mem_output_of_lookup hfinal, rfl, rfl⟩

/-- Witness for the amended C2 at a concrete input. -/
theorem claim_C2_witness :
    ((get_backup_targets graphCore "all" none none none).map
      (fun v => v.name)).Nodup ∧
    (∃ v ∈ get_backup_targets graphCore "selective" none none none,
      v.name = "nhi-core" ∧ v.reason = "core") ∧
    (∃ v ∈ get_backup_targets graphCore "core+infra" none none none,
      v.name = "nhi-core" ∧ v.reason = "core") :=
  ⟨claim_C2.1 graphCore "all" none none none,
   claim_C2.2.1 graphCore none none none nodeCore (by decide),
   claim_C2.2.2 graphCore none none none nodeCore (by decide)
     (fun info' hmem => by
       have hinfo : info' = nodeCore := by
         simpa [graphCore, Prod.ext_iff] using hmem
       rw [hinfo]
       rfl)⟩

/-- C9: whenever a node named `nhi-core` exists in the graph it is seeded
into the result map with reason `core` before any mode branch runs: it is
present in the output of every policy mode and for every argument list
(regardless of `exclude` and of its status); its reason is `core` under the
`core` policy, and also under `all` and `core+infra` whenever `nhi-core` is
in the exclude list (so that no mode branch overwrites the seeded entry). -/
theorem claim_C9 :
    (∀ (g : Graph) (policy : String) (incl excl stats : Option (List String))
        (info : NodeInfo), Graph.find g "nhi-core" = some info →
      ∃ v ∈ get_backup_targets g policy incl excl stats,
        v.name = "nhi-core") ∧
    (∀ (g : Graph) (incl excl stats : Option (List String))
        (info : NodeInfo), Graph.find g "nhi-core" = some info →
      ∃ v ∈ get_backup_targets g "core" incl excl stats,
        v.name = "nhi-core" ∧ v.reason = "core") ∧
    (∀ (g : Graph) (incl excl stats : Option (List String))
        (info : NodeInfo), "nhi-core" ∈ excl.getD [] →
        Graph.find g "nhi-core" = some info →
      (∃ v ∈ get_backup_targets g "all" incl excl stats,
        v.name = "nhi-core" ∧ v.reason = "core") ∧
      (∃ v ∈ get_backup_targets g "core+infra" incl excl stats,
        v.name = "nhi-core" ∧ v.reason = "core")) := by
  refine ⟨?_, ?_, ?_⟩
  · intro g policy incl excl stats info hfind
    have hbase : ∃ v, List.lookup "nhi-core" (seedTargets g) = some v ∧
        v.name = "nhi-core" := ⟨_, seed_lookup_core hfind, rfl⟩
    simp only [get_backup_targets]
    split_ifs
    · obtain ⟨v, hv, hn⟩ := hbase
      exact ⟨v, mem_output_of_lookup hv, hn⟩
    · obtain ⟨v, hv, hn⟩ := foldl_preserve
        (fun t' => ∃ v, List.lookup "nhi-core" t' = some v ∧
          v.name = "nhi-core")
        (infraStep (excl.getD []) (effectiveStatuses stats)) g _
        (fun t' p _ h' => by
          exact infraStep_preserves_named _ _ t' p h') hbase
      exact ⟨v, mem_output_of_lookup hv, hn⟩
    · obtain ⟨v, hv, hn⟩ := foldl_preserve
        (fun t' => ∃ v, List.lookup "nhi-core" t' = some v ∧
          v.name = "nhi-core")
        (selStep g (excl.getD []) (effectiveStatuses stats)) (incl.getD []) _
        (fun t' sv _ h' => by
          exact selStep_preserves_named g _ _ t' sv h') hbase
      exact ⟨v, mem_output_of_lookup hv, hn⟩
    · obtain ⟨v, hv, hn⟩ := foldl_preserve
        (fun t' => ∃ v, List.lookup "nhi-core" t' = some v ∧
          v.name = "nhi-core")
        (allStep (excl.getD []) (effectiveStatuses stats)) g _
        (fun t' p _ h' => by
          exact allStep_preserves_named _ _ t' p h') hbase
      exact ⟨v, mem_output_of_lookup hv, hn⟩
    · obtain ⟨v, hv, hn⟩ := hbase
      exact ⟨v, mem_output_of_lookup hv, hn⟩
  · intro g incl excl stats info hfind
    rw [getTargets_core_eq]
    exact ⟨_, mem_output_of_lookup (seed_lookup_core hfind), rfl, rfl⟩
  · intro g incl excl stats info hx hfind
    constructor
    · have hfinal := foldl_preserve
        (fun t' => List.lookup "nhi-core" t' =
          some ⟨info, "nhi-core", "core"⟩)
        (allStep (excl.getD []) (effectiveStatuses stats)) g _
        (fun t' p _ h' => by
          show List.lookup "nhi-core"
            (allStep (excl.getD []) (effectiveStatuses stats) t' p) =
            some ⟨info, "nhi-core", "core"⟩
          rw [allStep_lookup_excluded _ _ hx p]
          exact h')
        (seed_lookup_core hfind)
      rw [getTargets_all_eq]
      exact ⟨_, mem_output_of_lookup hfinal, rfl, rfl⟩
    · have hfinal := foldl_preserve
        (fun t' => List.lookup "nhi-core" t' =
          some ⟨info, "nhi-core", "core"⟩)
        (infraStep (excl.getD []) (effectiveStatuses stats)) g _
        (fun t' p _ h' => by
          show List.lookup "nhi-core"
            (infraStep (excl.getD []) (effectiveStatuses stats) t' p) =
            some ⟨info, "nhi-core", "core"⟩
          rw [infraStep_lookup_excluded _ _ hx p]
          exact h')
        (seed_lookup_core hfind)
      rw [getTargets_infra_eq]
      exact ⟨_, mem_output_of_lookup hfinal, rfl, rfl⟩

/-- Witness for C9 at concrete inputs. -/
theorem claim_C9_witness :
    (∃ v ∈ get_backup_targets graphCore "all" none none none,
      v.name = "nhi-core") ∧
    (∃ v ∈ get_backup_targets graphCore "core" none none none,
      v.name = "nhi-core" ∧ v.reason = "core") ∧
    (∃ v ∈ get_backup_targets graphCore "all" none (some ["nhi-core"]) none,
      v.name = "nhi-core" ∧ v.reason = "core") :=
  ⟨claim_C9.1 graphCore "all" none none none nodeCore (by decide),
   claim_C9.2.1 graphCore none none none nodeCore (by decide),
   (claim_C9.2.2 graphCore none (some ["nhi-core"]) none nodeCore
     (by decide) (by decide)).1⟩

/-- `get_graph` serves the cache exactly when `force_rebuild` is false, a
cache file exists, and its age is strictly below the TTL. -/
theorem uses_cache_iff (force : Bool) (s : ResolverState) :
    get_graph_uses_cache force s = true ↔
      (force = false ∧ ∃ cf, s.cacheFile = some cf ∧
        s.now - cf.mtime < s.ttl) := by
  rw [get_graph_uses_cache, decide_eq_true_eq]
  constructor
  · rintro ⟨hf, hv⟩
    refine ⟨hf, ?_⟩
    cases hcf : s.cacheFile with
    | none =>
      rw [is_cache_valid, hcf] at hv
      cases hv
    | some cf =>
      rw [is_cache_valid, hcf, decide_eq_true_eq] at hv
      exact ⟨cf, rfl, hv⟩
  · rintro ⟨hf, cf, hcf, hlt⟩
    refine ⟨hf, ?_⟩
    rw [is_cache_valid, hcf, decide_eq_true_eq]
    exact hlt

/-- C6: `get_graph(false)` returns the cached graph without rebuilding
exactly when a cache envelope exists and its age is strictly below the TTL;
with an envelope written at `t0` and TTL `T`, a call at `t0 + T - ε` uses
the cache and returns the same graph as a call at `t0`, while a call at
`t0 + T + ε` misses and rebuilds. -/
theorem claim_C6 :
    (∀ (force : Bool) (s : ResolverState),
      get_graph_uses_cache force s = true ↔
        (force = false ∧ ∃ cf, s.cacheFile = some cf ∧
          s.now - cf.mtime < s.ttl)) ∧
    (∀ (cf : CacheFile) (t0 T eps : Int) (store : List Doc) (reg sv : Bool),
      0 < eps → 0 < T → cf.mtime = t0 →
      get_graph_uses_cache false
        ⟨some cf, t0 + T - eps, T, store, reg, sv⟩ = true ∧
      get_graph false ⟨some cf, t0 + T - eps, T, store, reg, sv⟩ =
        get_graph false ⟨some cf, t0, T, store, reg, sv⟩ ∧
      get_graph_uses_cache false ⟨some cf, t0, T, store, reg, sv⟩ = true ∧
      get_graph_uses_cache false
        ⟨some cf, t0 + T + eps, T, store, reg, sv⟩ = false ∧
      get_graph false ⟨some cf, t0 + T + eps, T, store, reg, sv⟩ =
        build_graph ⟨some cf, t0 + T + eps, T, store, reg, sv⟩) := by
  constructor
  · exact uses_cache_iff
  · intro cf t0 T eps store reg sv heps hT hm
    have h1 : get_graph_uses_cache false
        ⟨some cf, t0 + T - eps, T, store, reg, sv⟩ = true :=
      (uses_cache_iff _ _).mpr ⟨rfl, cf, rfl, by
        show t0 + T - eps - cf.mtime < T
        rw [hm]
        omega⟩
    have h0 : get_graph_uses_cache false
        ⟨some cf, t0, T, store, reg, sv⟩ = true :=
      (uses_cache_iff _ _).mpr ⟨rfl, cf, rfl, by
        show t0 - cf.mtime < T
        rw [hm]
        omega⟩
    have h2 : get_graph_uses_cache false
        ⟨some cf, t0 + T + eps, T, store, reg, sv⟩ = false := by
      rw [Bool.eq_false_iff]
      intro hcontra
      obtain ⟨-, cf', hcf', hlt⟩ := (uses_cache_iff _ _).mp hcontra
      have hcc : cf = cf' := Option.some.inj hcf'
      have hlt' : t0 + T + eps - t0 < T := by
        rw [← hcc, hm] at hlt
        exact hlt
      omega
    refine ⟨h1, ?_, h0, h2, ?_⟩
    · rw [get_graph, if_pos (of_decide_eq_true h1),
        get_graph, if_pos (of_decide_eq_true h0)]
      simp only [load_cache]
      cases cf.content with
      | ok d => rfl
      | error e => rfl
    · rw [get_graph, if_neg (of_decide_eq_false h2)]

/-- Witness for C6 at a concrete input: TTL = 3600, envelope written at 0,
calls at 3599 (hit) and 3601 (miss). -/
theorem claim_C6_witness :
    get_graph_uses_cache false
      ⟨some ⟨0, Except.ok ⟨some []⟩⟩, 0 + 3600 - 1, 3600, [], true, true⟩ =
      true ∧
    get_graph_uses_cache false
      ⟨some ⟨0, Except.ok ⟨some []⟩⟩, 0 + 3600 + 1, 3600, [], true, true⟩ =
      false :=
  ⟨(claim_C6.2 ⟨0, Except.ok ⟨some []⟩⟩ 0 3600 1 [] true true (by decide)
      (by decide) rfl).1,
   (claim_C6.2 ⟨0, Except.ok ⟨some []⟩⟩ 0 3600 1 [] true true (by decide)
      (by decide) rfl).2.2.2.1⟩

/-- C7: the manifest loop of `_build_graph` skips a document that fails to
parse or lacks a `name` field and continues with the rest (the builder is a
total function — nothing is raised); on a store with one nameless document
and two valid ones, the resulting graph holds exactly the two valid
nodes. -/
theorem claim_C7 :
    (∀ (docs : List Doc) (d : Doc),
        (d = none ∨ ∃ m, d = some m ∧ m.name = none) →
        build_graph_docs (d :: docs) = build_graph_docs docs) ∧
    build_graph_docs storeC7 =
      [("svc-a", nodeOfManifest manifestA "svc-a"),
       ("svc-b", nodeOfManifest manifestB "svc-b")] := by
  constructor
  · intro docs d hd
    rcases hd with rfl | ⟨m, rfl, hm⟩
    · rfl
    · simp [build_graph_docs, hm]
  · rfl

/-- Witness for C7 at a concrete input: prepending the nameless manifest
leaves the built graph unchanged. -/
theorem claim_C7_witness :
    (some namelessManifest = none ∨
      ∃ m, some namelessManifest = some m ∧ m.name = none) ∧
    build_graph_docs (some namelessManifest :: [some manifestA]) =
      build_graph_docs [some manifestA] :=
  ⟨Or.inr ⟨namelessManifest, rfl, rfl⟩,
   claim_C7.1 [some manifestA] (some namelessManifest)
     (Or.inr ⟨namelessManifest, rfl, rfl⟩)⟩

/-- C8: cache storage failures never make `get_graph` fail: when the cache
file exists but its content cannot be read, `get_graph` falls back to a full
rebuild (for any force flag); the graph `get_graph` returns never depends on
the save flag of the state; and whatever the outcome of the envelope write
attempted by the rebuild — success, a failed `open` that leaves the old
file, or a failed dump that leaves a truncated file — the rebuild still
returns the freshly built graph. -/
theorem claim_C8 :
    (∀ (s : ResolverState) (cf : CacheFile) (force : Bool),
        s.cacheFile = some cf → cf.content = Except.error () →
        get_graph force s = build_graph s) ∧
    (∀ (cacheFile : Option CacheFile) (now ttl : Int) (store : List Doc)
        (reg : Bool) (b b' : Bool) (force : Bool),
      get_graph force ⟨cacheFile, now, ttl, store, reg, b⟩ =
        get_graph force ⟨cacheFile, now, ttl, store, reg, b'⟩) ∧
    (∀ (s : ResolverState) (o : SaveOutcome),
      (build_graph_run s o).1 = build_graph s) := by
  refine ⟨?_, ?_, ?_⟩
  · intro s cf force hcf herr
    rw [get_graph]
    by_cases hcond : force = false ∧ is_cache_valid s = true
    · rw [if_pos hcond]
      simp only [load_cache, hcf, herr]
    · rw [if_neg hcond]
  · intro cacheFile now ttl store reg b b' force
    rfl
  · intro s o
    rw [build_graph_run, build_graph]
    by_cases h : s.registry_path_exists = false
    · rw [if_pos h, if_pos h]
    · rw [if_neg h, if_neg h]

/-- Witness for C8 at a concrete input: a fresh but unreadable cache file
falls back to a rebuild. -/
theorem claim_C8_witness :
    get_graph false
        ⟨some ⟨0, Except.error ()⟩, 1, 3600, storeC7, true, true⟩ =
      build_graph ⟨some ⟨0, Except.error ()⟩, 1, 3600, storeC7, true, true⟩ :=
  claim_C8.1 ⟨some ⟨0, Except.error ()⟩, 1, 3600, storeC7, true, true⟩
    ⟨0, Except.error ()⟩ false rfl rfl

/-- C10: an empty `include_status` list is treated identically to passing no
value at all — both fall back to the default status set
`{active, development, maintenance}` via `include_status or [...]`. -/
theorem claim_C10 (g : Graph) (policy : String)
    (incl excl : Option (List String)) :
    get_backup_targets g policy incl excl (some []) =
      get_backup_targets g policy incl excl none := rfl

end NHI

